import Mathlib

/-!
Shallow embedding of `mzm_generation.py`: the Kitaev-chain quadratic
Hamiltonian builder, the Bogoliubov-de Gennes (BdG) matrix assembly, the
task descriptor with its derived filename/hash, and the expectation-value
estimators that turn bitstring count histograms into real numbers.

Real (Python float) scalars are modelled as rationals; complex scalars as
pairs of rationals.  Fallible arithmetic (Python's division by zero) is
modelled with `Option`.  Bitstrings are lists of booleans (`true` = '1').
-/

/-- Complex scalar with rational real and imaginary parts, modelling the
numpy complex values flowing through the module. -/
structure Cplx where
  re : ℚ
  im : ℚ
  deriving DecidableEq, Repr

namespace Cplx

instance : Zero Cplx := ⟨⟨0, 0⟩⟩
instance : Add Cplx := ⟨fun a b => ⟨a.re + b.re, a.im + b.im⟩⟩
instance : Neg Cplx := ⟨fun a => ⟨-a.re, -a.im⟩⟩
instance : Mul Cplx := ⟨fun a b => ⟨a.re * b.re - a.im * b.im, a.re * b.im + a.im * b.re⟩⟩

/-- Complex conjugation. -/
def conj (a : Cplx) : Cplx := ⟨a.re, -a.im⟩

/-- Embedding of a real (rational) scalar. -/
def ofRat (q : ℚ) : Cplx := ⟨q, 0⟩

end Cplx

/-- An `n × n` complex matrix, as a function on indices. -/
def CMatrix (n : ℕ) : Type := Fin n → Fin n → Cplx

instance (n : ℕ) : DecidableEq (CMatrix n) :=
  inferInstanceAs (DecidableEq (Fin n → Fin n → Cplx))

/-- The pair of matrices defining a quadratic fermionic Hamiltonian,
mirroring `QuadraticHamiltonian(hermitian_part, antisymmetric_part)`. -/
structure QuadraticHamiltonian (n : ℕ) where
  hermitian_part : CMatrix n
  antisymmetric_part : CMatrix n

/-- `np.eye(n)` as a rational matrix. -/
def eyeM (n : ℕ) : Fin n → Fin n → ℚ := fun i j => if i = j then 1 else 0

/-- `np.diag(np.ones(n-1), k=1)`: ones on the super-diagonal. -/
def upperDiag (n : ℕ) : Fin n → Fin n → ℚ := fun i j => if j.val = i.val + 1 then 1 else 0

/-- `np.diag(np.ones(n-1), k=-1)`: ones on the sub-diagonal. -/
def lowerDiag (n : ℕ) : Fin n → Fin n → ℚ := fun i j => if i.val = j.val + 1 then 1 else 0

/-- `kitaev_hamiltonian(n_modes, tunneling, superconducting, chemical_potential)`:
`hermitian_part = -t*(upper_diag + lower_diag) + mu*eye`,
`antisymmetric_part = Delta*(upper_diag - lower_diag)`. -/
def kitaev_hamiltonian (n : ℕ) (tunneling superconducting chemical_potential : ℚ) :
    QuadraticHamiltonian n where
  hermitian_part := fun i j =>
    Cplx.ofRat (-tunneling * (upperDiag n i j + lowerDiag n i j)
      + chemical_potential * eyeM n i j)
  antisymmetric_part := fun i j =>
    Cplx.ofRat (superconducting * (upperDiag n i j - lowerDiag n i j))

/-- `bdg_hamiltonian(hamiltonian)`: the `2n × 2n` block matrix
`[[-conj(H), -conj(A)], [A, H]]` assembled by `np.block`. -/
def bdg_hamiltonian {n : ℕ} (hamiltonian : QuadraticHamiltonian n) :
    Fin (n + n) → Fin (n + n) → Cplx := fun i j =>
  if hi : i.val < n then
    if hj : j.val < n then
      -(hamiltonian.hermitian_part ⟨i.val, hi⟩ ⟨j.val, hj⟩).conj
    else
      -(hamiltonian.antisymmetric_part ⟨i.val, hi⟩
          ⟨j.val - n, by omega⟩).conj
  else
    if hj : j.val < n then
      hamiltonian.antisymmetric_part ⟨i.val - n, by omega⟩ ⟨j.val, hj⟩
    else
      hamiltonian.hermitian_part ⟨i.val - n, by omega⟩ ⟨j.val - n, by omega⟩

/-- A measurement count histogram: a finite map from bitstrings to counts,
modelled as an association list (`true` ↔ the character '1'). -/
def Counts : Type := List (List Bool × ℕ)

/-- `sum(counts.values())`: the total number of shots. -/
def totalShots (counts : Counts) : ℕ := counts.foldl (fun acc p => acc + p.2) 0

/-- `sum(1 for b in bitstring if b == "1")`: the parity of a bitstring. -/
def bitParity (bitstring : List Bool) : ℕ := bitstring.count true

/-- `compute_measure_edge_correlation(counts)`: accumulate
`-(-1)^parity * count` over the histogram, then divide by the total shot
count; division by a zero total is the fallible step (`none`). -/
def compute_measure_edge_correlation (counts : Counts) : Option ℚ :=
  let shots := totalShots counts
  let correlation_expectation : ℚ :=
    counts.foldl (fun acc p => acc - (-1 : ℚ) ^ bitParity p.1 * (p.2 : ℚ)) 0
  if shots = 0 then none else some (correlation_expectation / (shots : ℚ))

/-- One term of a `SparsePauliOp`: parallel boolean Z/X masks and a complex
coefficient. -/
structure PauliTerm where
  z : List Bool
  x : List Bool
  coeff : Cplx

/-- The parity over the qubit positions flagged by the term's mask where the
measured bit is '1': `sum(1 for i, b in enumerate(bitstring) if
pauli_string[i] and b == "1")`. -/
def maskedParity (pauli_string : List Bool) (bitstring : List Bool) : ℕ :=
  (bitstring.zip pauli_string).countP (fun p => p.2 && p.1)

/-- The inner loop of `compute_measure_hamiltonian`:
`term_expectation += (-1)**parity * count` over a histogram. -/
def termExpectationSum (counts : Counts) (pauli_string : List Bool) : ℚ :=
  counts.foldl (fun acc p => acc + (-1 : ℚ) ^ maskedParity pauli_string p.1 * (p.2 : ℚ)) 0

/-- The body of the term loop of `compute_measure_hamiltonian`: dispatch on
the Z mask first, then the X mask, else the identity term; normalising by a
zero shot count is the fallible step (`none`), which aborts the loop. -/
def hamStep (counts_z counts_x : Counts) (shots_z shots_x : ℕ)
    (acc : Option Cplx) (term : PauliTerm) : Option Cplx :=
  acc.bind fun a =>
    if term.z.any id then
      if shots_z = 0 then none
      else some (a + term.coeff * Cplx.ofRat (termExpectationSum counts_z term.z / (shots_z : ℚ)))
    else if term.x.any id then
      if shots_x = 0 then none
      else some (a + term.coeff * Cplx.ofRat (termExpectationSum counts_x term.x / (shots_x : ℚ)))
    else some (a + term.coeff)

/-- `compute_measure_hamiltonian(counts_z, counts_x, hamiltonian)`: fold the
term loop over the Pauli terms and return the real part. -/
def compute_measure_hamiltonian (counts_z counts_x : Counts)
    (hamiltonian : List PauliTerm) : Option ℚ :=
  (hamiltonian.foldl
    (hamStep counts_z counts_x (totalShots counts_z) (totalShots counts_x))
    (some 0)).map Cplx.re

/-- The decimal digit characters used by Python's integer formatting. -/
def digitChar (d : ℕ) : Char :=
  match d with
  | 0 => '0' | 1 => '1' | 2 => '2' | 3 => '3' | 4 => '4'
  | 5 => '5' | 6 => '6' | 7 => '7' | 8 => '8' | 9 => '9'
  | _ => '?'

/-- Inverse of `digitChar` on decimal digits. -/
def charDigit (c : Char) : ℕ :=
  match c with
  | '0' => 0 | '1' => 1 | '2' => 2 | '3' => 3 | '4' => 4
  | '5' => 5 | '6' => 6 | '7' => 7 | '8' => 8 | '9' => 9
  | _ => 0

/-- Fuel-bounded decimal printer for naturals (most significant digit
first); with fuel `> n` it prints `n` exactly. -/
def natCharsAux : ℕ → ℕ → List Char
  | 0, _ => []
  | fuel + 1, n =>
    if n < 10 then [digitChar n]
    else natCharsAux fuel (n / 10) ++ [digitChar (n % 10)]

/-- Python `str` of a non-negative integer, as a character list. -/
def natChars (n : ℕ) : List Char := natCharsAux (n + 1) n

/-- Python `str` of a non-negative integer. -/
def natStr (n : ℕ) : String := ⟨natChars n⟩

/-- Round to the nearest integer, ties to even: the rounding used by
Python's fixed-point float formatting. -/
def roundHalfEven (q : ℚ) : ℤ :=
  if q - ⌊q⌋ = 1 / 2 then (if ⌊q⌋ % 2 = 0 then ⌊q⌋ else ⌊q⌋ + 1)
  else round q

/-- Left-pad a two-digit fractional part with '0'. -/
def pad2Chars (k : ℕ) : List Char :=
  if k < 10 then '0' :: natChars k else natChars k

/-- Python `f"{q:.2f}"` under the rational model of floats: a '-' sign
exactly when the value is negative (Python renders `-0.001` as `"-0.00"`),
then the magnitude of `q*100` rounded half-to-even, printed with two digits
after the point. -/
def f2Chars (q : ℚ) : List Char :=
  (if q < 0 then ['-'] else [])
    ++ natChars ((roundHalfEven (q * 100)).natAbs / 100)
    ++ '.' :: pad2Chars ((roundHalfEven (q * 100)).natAbs % 100)

/-- Python `str` of a tuple of non-negative integers, as characters:
`()`, `(a,)`, `(a, b, ...)`. -/
def tupleTailChars : List ℕ → List Char
  | [] => []
  | [a] => natChars a
  | a :: b :: rest => natChars a ++ ',' :: ' ' :: tupleTailChars (b :: rest)

/-- The characters between the parentheses of Python's `str` of a tuple. -/
def tupleBodyChars : List ℕ → List Char
  | [] => []
  | [a] => natChars a ++ [',']
  | a :: b :: rest => natChars a ++ ',' :: ' ' :: tupleTailChars (b :: rest)

/-- Python `str` of a tuple of non-negative integers. -/
def pyTupleChars (l : List ℕ) : List Char := '(' :: tupleBodyChars l ++ [')']

/-- One step of CPython's `posixpath.join` loop: a component starting with
the separator restarts the path; no separator is inserted after an empty
path or one already ending in the separator; otherwise a '/' is inserted. -/
def pathJoinOne (path b : List Char) : List Char :=
  if b.head? = some '/' then b
  else if path = [] ∨ path.getLast? = some '/' then path ++ b
  else path ++ '/' :: b

/-- The parameter segment
`f"n{n_modes}t{tunneling:.2f}_Delta{superconducting:.2f}_mu{chemical_potential:.2f}"`. -/
def seg2Chars (n : ℕ) (t D mu : ℚ) : List Char :=
  'n' :: natChars n ++ 't' :: f2Chars t
    ++ '_' :: 'D' :: 'e' :: 'l' :: 't' :: 'a' :: f2Chars D
    ++ '_' :: 'm' :: 'u' :: f2Chars mu

/-- The segment `f"shots{shots}"`. -/
def shotsSeg (shots : List ℕ) : List Char :=
  's' :: 'h' :: 'o' :: 't' :: 's' :: pyTupleChars shots

/-- The experiment task descriptor (`@dataclasses.dataclass`).  The two
tuple fields hold non-negative integers (orbital indices and shot counts),
per the data model. -/
structure KitaevHamiltonianTask where
  experiment_id : String
  n_modes : ℕ
  tunneling : ℚ
  superconducting : ℚ
  chemical_potential : ℚ
  occupied_orbitals : List ℕ
  shots : List ℕ
  deriving DecidableEq, Repr

namespace KitaevHamiltonianTask

/-- The characters of the derived path key: `os.path.join(experiment_id,
f"n{n}t{t:.2f}_Delta{D:.2f}_mu{mu:.2f}", f"shots{shots}",
str(occupied_orbitals))`, folding `posixpath.join`'s loop step over the
four components. -/
def filenameChars (task : KitaevHamiltonianTask) : List Char :=
  pathJoinOne
    (pathJoinOne
      (pathJoinOne task.experiment_id.data
        (seg2Chars task.n_modes task.tunneling task.superconducting
          task.chemical_potential))
      (shotsSeg task.shots))
    (pyTupleChars task.occupied_orbitals)

/-- The derived path key as a string. -/
def filename (task : KitaevHamiltonianTask) : String := ⟨task.filenameChars⟩

/-- A concrete string hash standing in for Python's opaque `hash`. -/
def strHash (s : String) : ℕ := s.data.foldl (fun h c => h * 31 + c.toNat) 7

/-- `__hash__`: `hash((KitaevHamiltonianTask, self.filename))` — a function
of the derived filename only. -/
def taskHash (task : KitaevHamiltonianTask) : ℕ := strHash task.filename

end KitaevHamiltonianTask

/-- Uniform scaling of every count in a histogram. -/
def scaleCounts (k : ℕ) (counts : Counts) : Counts :=
  counts.map (fun p => (p.1, k * p.2))

/-- The numeric value of a decimal digit string (a left inverse of the
decimal printer, used to prove it injective). -/
def decVal (l : List Char) : ℕ := l.foldl (fun a c => 10 * a + charDigit c) 0

namespace Cplx

@[simp] theorem zero_re : (0 : Cplx).re = 0 := rfl
@[simp] theorem zero_im : (0 : Cplx).im = 0 := rfl
@[simp] theorem add_re (a b : Cplx) : (a + b).re = a.re + b.re := rfl
@[simp] theorem add_im (a b : Cplx) : (a + b).im = a.im + b.im := rfl
@[simp] theorem neg_re (a : Cplx) : (-a).re = -a.re := rfl
@[simp] theorem neg_im (a : Cplx) : (-a).im = -a.im := rfl
@[simp] theorem mul_re (a b : Cplx) : (a * b).re = a.re * b.re - a.im * b.im := rfl
@[simp] theorem mul_im (a b : Cplx) : (a * b).im = a.re * b.im + a.im * b.re := rfl
@[simp] theorem conj_re (a : Cplx) : a.conj.re = a.re := rfl
@[simp] theorem conj_im (a : Cplx) : a.conj.im = -a.im := rfl
@[simp] theorem ofRat_re (q : ℚ) : (ofRat q).re = q := rfl
@[simp] theorem ofRat_im (q : ℚ) : (ofRat q).im = 0 := rfl

@[ext] theorem ext {a b : Cplx} (hre : a.re = b.re) (him : a.im = b.im) : a = b := by
  cases a; cases b; simp_all

@[simp] theorem conj_conj (a : Cplx) : a.conj.conj = a := by ext <;> simp

@[simp] theorem conj_neg (a : Cplx) : (-a).conj = -a.conj := by ext <;> simp

@[simp] theorem neg_neg_c (a : Cplx) : -(-a) = a := by ext <;> simp

end Cplx

theorem ofRat_inj {a b : ℚ} : Cplx.ofRat a = Cplx.ofRat b ↔ a = b := by
  constructor
  · intro h; exact congrArg Cplx.re h
  · intro h; rw [h]

@[simp] theorem cplx_zero_add (a : Cplx) : (0 : Cplx) + a = a := by
  apply Cplx.ext <;> simp

theorem bdg_apply_tl {n : ℕ} (H : QuadraticHamiltonian n) {i j : Fin (n + n)}
    (hi : (i : ℕ) < n) (hj : (j : ℕ) < n) :
    bdg_hamiltonian H i j = -(H.hermitian_part ⟨(i : ℕ), hi⟩ ⟨(j : ℕ), hj⟩).conj := by
  simp only [bdg_hamiltonian]
  rw [dif_pos hi, dif_pos hj]

theorem bdg_apply_tr {n : ℕ} (H : QuadraticHamiltonian n) {i j : Fin (n + n)}
    (hi : (i : ℕ) < n) (hj : ¬(j : ℕ) < n) :
    bdg_hamiltonian H i j
      = -(H.antisymmetric_part ⟨(i : ℕ), hi⟩ ⟨(j : ℕ) - n, by omega⟩).conj := by
  simp only [bdg_hamiltonian]
  rw [dif_pos hi, dif_neg hj]

theorem bdg_apply_bl {n : ℕ} (H : QuadraticHamiltonian n) {i j : Fin (n + n)}
    (hi : ¬(i : ℕ) < n) (hj : (j : ℕ) < n) :
    bdg_hamiltonian H i j
      = H.antisymmetric_part ⟨(i : ℕ) - n, by omega⟩ ⟨(j : ℕ), hj⟩ := by
  simp only [bdg_hamiltonian]
  rw [dif_neg hi, dif_pos hj]

theorem bdg_apply_br {n : ℕ} (H : QuadraticHamiltonian n) {i j : Fin (n + n)}
    (hi : ¬(i : ℕ) < n) (hj : ¬(j : ℕ) < n) :
    bdg_hamiltonian H i j
      = H.hermitian_part ⟨(i : ℕ) - n, by omega⟩ ⟨(j : ℕ) - n, by omega⟩ := by
  simp only [bdg_hamiltonian]
  rw [dif_neg hi, dif_neg hj]

/-- Claim C1: `kitaev_hamiltonian` returns the pair whose hermitian part is
`-t·(super-diagonal + sub-diagonal) + μ·I` and whose antisymmetric part is
`Δ·(super-diagonal − sub-diagonal)`; at `n_modes = 4, t = 1, Δ = 1/2, μ = 0`
the hermitian part is the symmetric tridiagonal matrix with off-diagonal
`-1` and zero diagonal, and the antisymmetric part has `+1/2` above and
`-1/2` below the diagonal. -/
theorem spec_C1_kitaev_hamiltonian (n : ℕ) (t D mu : ℚ) (_hn : 0 < n) :
    (∀ i j : Fin n,
      (kitaev_hamiltonian n t D mu).hermitian_part i j =
        Cplx.ofRat ((if (j : ℕ) = (i : ℕ) + 1 then -t
            else if (i : ℕ) = (j : ℕ) + 1 then -t else 0)
          + (if i = j then mu else 0)) ∧
      (kitaev_hamiltonian n t D mu).antisymmetric_part i j =
        Cplx.ofRat (if (j : ℕ) = (i : ℕ) + 1 then D
          else if (i : ℕ) = (j : ℕ) + 1 then -D else 0)) ∧
    (∀ i j : Fin 4,
      (kitaev_hamiltonian 4 1 (1/2) 0).hermitian_part i j =
        Cplx.ofRat (if (j : ℕ) = (i : ℕ) + 1 then -1
          else if (i : ℕ) = (j : ℕ) + 1 then -1 else 0) ∧
      (kitaev_hamiltonian 4 1 (1/2) 0).antisymmetric_part i j =
        Cplx.ofRat (if (j : ℕ) = (i : ℕ) + 1 then 1/2
          else if (i : ℕ) = (j : ℕ) + 1 then -(1/2) else 0)) := by
  refine ⟨fun i j => ⟨?_, ?_⟩, fun i j => ⟨?_, ?_⟩⟩ <;>
    simp only [kitaev_hamiltonian, upperDiag, lowerDiag, eyeM, ofRat_inj,
      Fin.ext_iff] <;>
    split_ifs <;> first | omega | ring

/-- Closed instance of the C1 statement, discharging the `0 < n`
hypothesis at `n = 4` and evaluating at the entry `(0, 1)`. -/
theorem spec_C1_witness :
    (kitaev_hamiltonian 4 1 (1/2) 0).hermitian_part 0 1 =
      Cplx.ofRat ((if ((1 : Fin 4) : ℕ) = ((0 : Fin 4) : ℕ) + 1 then -(1 : ℚ)
          else if ((0 : Fin 4) : ℕ) = ((1 : Fin 4) : ℕ) + 1 then -1 else 0)
        + (if (0 : Fin 4) = 1 then 0 else 0)) ∧
    (kitaev_hamiltonian 4 1 (1/2) 0).antisymmetric_part 0 1 =
      Cplx.ofRat (if ((1 : Fin 4) : ℕ) = ((0 : Fin 4) : ℕ) + 1 then 1/2
        else if ((0 : Fin 4) : ℕ) = ((1 : Fin 4) : ℕ) + 1 then -(1/2) else 0) :=
  (spec_C1_kitaev_hamiltonian 4 1 (1/2) 0 (by decide)).1 0 1

/-- Claim C2: `bdg_hamiltonian` returns exactly the block matrix whose top
row is `[-conj(H), -conj(A)]` and whose bottom row is `[A, H]`. -/
theorem spec_C2_bdg_blocks (n : ℕ) (H : QuadraticHamiltonian n) (i j : Fin n) :
    bdg_hamiltonian H (Fin.castAdd n i) (Fin.castAdd n j)
        = -(H.hermitian_part i j).conj ∧
    bdg_hamiltonian H (Fin.castAdd n i) (Fin.natAdd n j)
        = -(H.antisymmetric_part i j).conj ∧
    bdg_hamiltonian H (Fin.natAdd n i) (Fin.castAdd n j)
        = H.antisymmetric_part i j ∧
    bdg_hamiltonian H (Fin.natAdd n i) (Fin.natAdd n j)
        = H.hermitian_part i j := by
  have hci : ((Fin.castAdd n i : Fin (n + n)) : ℕ) < n := i.isLt
  have hcj : ((Fin.castAdd n j : Fin (n + n)) : ℕ) < n := j.isLt
  have hni : ¬((Fin.natAdd n i : Fin (n + n)) : ℕ) < n := by
    show ¬(n + (i : ℕ) < n); omega
  have hnj : ¬((Fin.natAdd n j : Fin (n + n)) : ℕ) < n := by
    show ¬(n + (j : ℕ) < n); omega
  have ei : (⟨((Fin.natAdd n i : Fin (n + n)) : ℕ) - n, by omega⟩ : Fin n) = i := by
    apply Fin.ext
    show n + (i : ℕ) - n = (i : ℕ)
    omega
  have ej : (⟨((Fin.natAdd n j : Fin (n + n)) : ℕ) - n, by omega⟩ : Fin n) = j := by
    apply Fin.ext
    show n + (j : ℕ) - n = (j : ℕ)
    omega
  refine ⟨?_, ?_, ?_, ?_⟩
  · rw [bdg_apply_tl H hci hcj]
    rfl
  · rw [bdg_apply_tr H hci hnj, ej]
    rfl
  · rw [bdg_apply_bl H hni hcj, ei]
    rfl
  · rw [bdg_apply_br H hni hnj, ei, ej]

/-- Claim C6: for a Hermitian `hermitian_part` and antisymmetric
`antisymmetric_part`, the BdG matrix is Hermitian. -/
theorem spec_C6_bdg_hermitian (n : ℕ) (H : QuadraticHamiltonian n)
    (hH : ∀ i j, (H.hermitian_part j i).conj = H.hermitian_part i j)
    (hA : ∀ i j, H.antisymmetric_part j i = -(H.antisymmetric_part i j)) :
    ∀ i j : Fin (n + n), (bdg_hamiltonian H j i).conj = bdg_hamiltonian H i j := by
  intro i j
  have hi2 := i.isLt
  have hj2 := j.isLt
  by_cases hi : (i : ℕ) < n <;> by_cases hj : (j : ℕ) < n
  · rw [bdg_apply_tl H hj hi, bdg_apply_tl H hi hj, Cplx.conj_neg, Cplx.conj_conj,
      ← hH ⟨(i : ℕ), hi⟩ ⟨(j : ℕ), hj⟩, Cplx.conj_conj]
  · rw [bdg_apply_bl H hj hi, bdg_apply_tr H hi hj,
      hA ⟨(i : ℕ), hi⟩ ⟨(j : ℕ) - n, by omega⟩, Cplx.conj_neg]
  · rw [bdg_apply_tr H hj hi, bdg_apply_bl H hi hj, Cplx.conj_neg, Cplx.conj_conj,
      hA ⟨(i : ℕ) - n, by omega⟩ ⟨(j : ℕ), hj⟩, Cplx.neg_neg_c]
  · rw [bdg_apply_br H hj hi, bdg_apply_br H hi hj]
    exact hH _ _

theorem foldl_add_eq {M : Type} [AddCommMonoid M] {α : Type} (g : α → M) :
    ∀ (l : List α) (a : M), l.foldl (fun acc p => acc + g p) a = a + (l.map g).sum
  | [], a => by simp
  | p :: l, a => by
    simp only [List.foldl_cons, List.map_cons, List.sum_cons, foldl_add_eq g l]
    rw [add_assoc]

theorem foldl_sub_eq {α : Type} (g : α → ℚ) :
    ∀ (l : List α) (a : ℚ), l.foldl (fun acc p => acc - g p) a = a - (l.map g).sum
  | [], a => by simp
  | p :: l, a => by
    simp only [List.foldl_cons, List.map_cons, List.sum_cons, foldl_sub_eq g l]
    ring

theorem sum_map_neg {α : Type} (g : α → ℚ) :
    ∀ l : List α, (l.map fun p => -(g p)).sum = -((l.map g).sum)
  | [] => by simp
  | p :: l => by
    simp only [List.map_cons, List.sum_cons, sum_map_neg g l]
    ring

theorem totalShots_eq (counts : Counts) :
    totalShots counts = (counts.map Prod.snd).sum := by
  simpa using foldl_add_eq Prod.snd counts 0

theorem compute_measure_edge_correlation_eq (counts : Counts) :
    compute_measure_edge_correlation counts =
      if totalShots counts = 0 then none
      else some ((counts.map
          (fun p => -((-1 : ℚ) ^ (p.1.count true) * (p.2 : ℚ)))).sum
        / ((counts.map Prod.snd).sum : ℕ)) := by
  simp only [compute_measure_edge_correlation]
  rw [show (fun (acc : ℚ) (p : List Bool × ℕ) =>
      acc - (-1 : ℚ) ^ bitParity p.1 * (p.2 : ℚ))
    = (fun acc p => acc - ((-1 : ℚ) ^ bitParity p.1 * (p.2 : ℚ))) from rfl,
    foldl_sub_eq, ← totalShots_eq]
  simp only [bitParity, zero_sub,
    sum_map_neg (fun p : List Bool × ℕ => (-1 : ℚ) ^ (p.1.count true) * (p.2 : ℚ))]

theorem sum_map_mul_const {R : Type} [NonUnitalNonAssocSemiring R] {α : Type}
    (c : R) (g : α → R) :
    ∀ l : List α, (l.map fun p => c * g p).sum = c * (l.map g).sum
  | [] => by simp
  | p :: l => by
    simp only [List.map_cons, List.sum_cons, sum_map_mul_const c g l, mul_add]

theorem abs_term_sum_le :
    ∀ counts : Counts,
      |(counts.map (fun p => -((-1 : ℚ) ^ (p.1.count true) * (p.2 : ℚ)))).sum|
        ≤ (((counts.map Prod.snd).sum : ℕ) : ℚ)
  | [] => by simp
  | p :: counts => by
    simp only [List.map_cons, List.sum_cons]
    have h1 := abs_term_sum_le counts
    have h2 : |(-((-1 : ℚ) ^ (p.1.count true) * (p.2 : ℚ)))| = (p.2 : ℚ) := by
      rw [abs_neg, abs_mul, abs_pow, abs_neg, abs_one, one_pow, one_mul,
        Nat.abs_cast]
    calc |(-((-1 : ℚ) ^ (p.1.count true) * (p.2 : ℚ)))
            + (counts.map (fun p => -((-1 : ℚ) ^ (p.1.count true) * (p.2 : ℚ)))).sum|
        ≤ |(-((-1 : ℚ) ^ (p.1.count true) * (p.2 : ℚ)))|
            + |(counts.map (fun p => -((-1 : ℚ) ^ (p.1.count true) * (p.2 : ℚ)))).sum| :=
          abs_add _ _
      _ ≤ (p.2 : ℚ) + (((counts.map Prod.snd).sum : ℕ) : ℚ) := by
          rw [h2]; exact add_le_add_left h1 _
      _ = (((p.2 + (counts.map Prod.snd).sum : ℕ) : ℕ) : ℚ) := by push_cast; ring

/-- Claim C3: for a histogram with positive total count,
`compute_measure_edge_correlation` returns the sum of
`-(-1)^(number of ones) * count` divided by the total count; a single-entry
histogram on an all-zeros bitstring returns exactly `-1`, and one on a
bitstring with exactly one '1' returns exactly `+1`. -/
theorem spec_C3_edge_correlation (counts : Counts)
    (h : 0 < (counts.map Prod.snd).sum) :
    compute_measure_edge_correlation counts =
      some ((counts.map (fun p => -((-1 : ℚ) ^ (p.1.count true) * (p.2 : ℚ)))).sum
        / (((counts.map Prod.snd).sum : ℕ) : ℚ)) ∧
    ∀ (bs : List Bool) (N : ℕ), 0 < N →
      (bs.count true = 0 →
        compute_measure_edge_correlation [(bs, N)] = some (-1)) ∧
      (bs.count true = 1 →
        compute_measure_edge_correlation [(bs, N)] = some 1) := by
  constructor
  · rw [compute_measure_edge_correlation_eq,
      if_neg (by rw [totalShots_eq]; omega)]
  · intro bs N hN
    have hN' : ((N : ℕ) : ℚ) ≠ 0 := Nat.cast_ne_zero.mpr (by omega)
    constructor <;> intro hc <;>
      rw [compute_measure_edge_correlation_eq,
        if_neg (by rw [totalShots_eq]; simp; omega)] <;>
      simp [hc, totalShots_eq] <;>
      field_simp

/-- Closed instance of the C3 statement at a concrete single-entry
histogram on the all-zeros bitstring. -/
theorem spec_C3_witness :
    compute_measure_edge_correlation [([false, false], 5)] = some (-1) :=
  ((spec_C3_edge_correlation [([false, false], 5)] (by decide)).2
    [false, false] 5 (by decide)).1 rfl

/-- Claim C9: `compute_measure_edge_correlation` is invariant under uniform
scaling of the counts, because the shot total is recomputed internally. -/
theorem spec_C9_scale_invariant (counts : Counts) (k : ℕ) (hk : 0 < k)
    (h : 0 < totalShots counts) :
    compute_measure_edge_correlation (scaleCounts k counts)
      = compute_measure_edge_correlation counts := by
  have hts : ((scaleCounts k counts).map Prod.snd).sum
      = k * (counts.map Prod.snd).sum := by
    rw [scaleCounts, List.map_map]
    simpa using sum_map_mul_const k Prod.snd counts
  have hnum : ((scaleCounts k counts).map
        (fun p => -((-1 : ℚ) ^ (p.1.count true) * (p.2 : ℚ)))).sum
      = (k : ℚ) * (counts.map
        (fun p => -((-1 : ℚ) ^ (p.1.count true) * (p.2 : ℚ)))).sum := by
    rw [scaleCounts, List.map_map,
      show ((fun p : List Bool × ℕ => -((-1 : ℚ) ^ (p.1.count true) * (p.2 : ℚ)))
          ∘ (fun p : List Bool × ℕ => (p.1, k * p.2)))
        = fun p : List Bool × ℕ =>
            (k : ℚ) * -((-1 : ℚ) ^ (p.1.count true) * (p.2 : ℚ)) from
        funext fun p => by
          simp only [Function.comp]
          push_cast
          ring]
    exact sum_map_mul_const _ _ _
  have hscale : totalShots (scaleCounts k counts) = k * totalShots counts := by
    rw [totalShots_eq, totalShots_eq, hts]
  rw [compute_measure_edge_correlation_eq, compute_measure_edge_correlation_eq,
    if_neg (by omega : ¬totalShots counts = 0),
    if_neg (by rw [hscale]; exact Nat.mul_ne_zero (by omega) (by omega)),
    hnum, hts, Nat.cast_mul,
    mul_div_mul_left _ _ (Nat.cast_ne_zero.mpr (by omega : k ≠ 0))]

/-- Closed instance of the C9 statement at a concrete histogram. -/
theorem spec_C9_witness :
    compute_measure_edge_correlation (scaleCounts 2 [([true], 1)])
      = compute_measure_edge_correlation [([true], 1)] :=
  spec_C9_scale_invariant [([true], 1)] 2 (by decide) (by decide)

/-- Claim C10: for a histogram with non-negative counts and positive total,
the edge-correlation estimate lies in `[-1, 1]`. -/
theorem spec_C10_bounded (counts : Counts) (h : 0 < totalShots counts) :
    ∃ r : ℚ, compute_measure_edge_correlation counts = some r
      ∧ -1 ≤ r ∧ r ≤ 1 := by
  rw [compute_measure_edge_correlation_eq, if_neg (by omega)]
  have habs := abs_term_sum_le counts
  have hT : (0 : ℚ) < (((counts.map Prod.snd).sum : ℕ) : ℚ) := by
    rw [totalShots_eq] at h
    exact_mod_cast h
  obtain ⟨h1, h2⟩ := abs_le.mp habs
  refine ⟨_, rfl, ?_, ?_⟩
  · rw [le_div_iff₀ hT]
    linarith [h1]
  · rw [div_le_one hT]
    exact h2

/-- Closed instance of the C10 statement at a concrete histogram. -/
theorem spec_C10_witness :
    ∃ r : ℚ, compute_measure_edge_correlation [([true], 1)] = some r
      ∧ -1 ≤ r ∧ r ≤ 1 :=
  spec_C10_bounded [([true], 1)] (by decide)

/-- Claim C4: in `compute_measure_hamiltonian` a term is dispatched by
checking the Z mask first — any Z factor sends it to `counts_z` (normalised
by the sum of `counts_z`) with its Z mask, even when X factors are present;
no Z but some X sends it to `counts_x` with its X mask; neither contributes
the coefficient directly with no bit statistics. -/
theorem spec_C4_dispatch (counts_z counts_x : Counts) (z x : List Bool)
    (c : Cplx) :
    compute_measure_hamiltonian counts_z counts_x [⟨z, x, c⟩] =
      if z.any id then
        (if totalShots counts_z = 0 then none
         else some ((c * Cplx.ofRat
             (termExpectationSum counts_z z / (totalShots counts_z : ℚ))).re))
      else if x.any id then
        (if totalShots counts_x = 0 then none
         else some ((c * Cplx.ofRat
             (termExpectationSum counts_x x / (totalShots counts_x : ℚ))).re))
      else some c.re := by
  simp only [compute_measure_hamiltonian, List.foldl_cons, List.foldl_nil,
    hamStep, Option.some_bind]
  split_ifs <;> simp

theorem hamStep_none (counts_z counts_x : Counts) (shots_z shots_x : ℕ)
    (t : PauliTerm) :
    hamStep counts_z counts_x shots_z shots_x none t = none := rfl

theorem foldl_hamStep_none (counts_z counts_x : Counts) (shots_z shots_x : ℕ) :
    ∀ l : List PauliTerm,
      l.foldl (hamStep counts_z counts_x shots_z shots_x) none = none
  | [] => rfl
  | t :: l => by
    rw [List.foldl_cons, hamStep_none]
    exact foldl_hamStep_none counts_z counts_x shots_z shots_x l

/-- Claim C7: a zero shot total is not guarded against: the edge-correlation
estimator yields the undefined marker on a zero-total histogram, and the
Hamiltonian estimator does so as soon as a non-identity term divides by its
zero shot total. -/
theorem spec_C7_zero_shots (counts counts_z counts_x : Counts)
    (h : totalShots counts = 0) (hz : totalShots counts_z = 0)
    (hx : totalShots counts_x = 0) :
    compute_measure_edge_correlation counts = none ∧
    ∀ (pre post : List PauliTerm) (t : PauliTerm),
      (t.z.any id = true ∨ t.x.any id = true) →
      compute_measure_hamiltonian counts_z counts_x (pre ++ t :: post) = none := by
  constructor
  · rw [compute_measure_edge_correlation_eq, if_pos h]
  · intro pre post t ht
    rw [compute_measure_hamiltonian, List.foldl_append, List.foldl_cons]
    have hstep : hamStep counts_z counts_x (totalShots counts_z)
        (totalShots counts_x)
        (pre.foldl (hamStep counts_z counts_x (totalShots counts_z)
          (totalShots counts_x)) (some 0)) t = none := by
      cases hacc : pre.foldl (hamStep counts_z counts_x (totalShots counts_z)
          (totalShots counts_x)) (some 0) with
      | none => rfl
      | some a =>
        rw [hamStep, Option.some_bind]
        rcases ht with htz | htx
        · rw [if_pos htz, if_pos hz]
        · by_cases htz : t.z.any id
          · rw [if_pos htz, if_pos hz]
          · rw [if_neg htz, if_pos htx, if_pos hx]
    rw [hstep, foldl_hamStep_none]
    rfl

/-- Closed instance of the C7 statement at empty histograms. -/
theorem spec_C7_witness :
    compute_measure_edge_correlation ([] : Counts) = none ∧
    compute_measure_hamiltonian ([] : Counts) ([] : Counts)
      [⟨[true], [], Cplx.ofRat 1⟩] = none :=
  ⟨(spec_C7_zero_shots [] [] [] rfl rfl rfl).1,
    (spec_C7_zero_shots [] [] [] rfl rfl rfl).2 [] []
      ⟨[true], [], Cplx.ofRat 1⟩ (Or.inl rfl)⟩

theorem charDigit_digitChar {d : ℕ} (h : d < 10) :
    charDigit (digitChar d) = d := by
  interval_cases d <;> rfl

theorem decVal_append (l : List Char) (c : Char) :
    decVal (l ++ [c]) = 10 * decVal l + charDigit c := by
  simp [decVal, List.foldl_append]

theorem decVal_natCharsAux :
    ∀ (fuel n : ℕ), n < fuel → decVal (natCharsAux fuel n) = n
  | 0, _, h => absurd h (by omega)
  | fuel + 1, n, h => by
    rw [natCharsAux]
    by_cases h10 : n < 10
    · rw [if_pos h10]
      simp [decVal, charDigit_digitChar h10]
    · rw [if_neg h10, decVal_append,
        decVal_natCharsAux fuel (n / 10) (by omega),
        charDigit_digitChar (show n % 10 < 10 by omega)]
      omega

theorem decVal_natChars (n : ℕ) : decVal (natChars n) = n :=
  decVal_natCharsAux (n + 1) n (by omega)

theorem natChars_inj {m n : ℕ} (h : natChars m = natChars n) : m = n := by
  have hm := decVal_natChars m
  rw [h, decVal_natChars n] at hm
  exact hm.symm

theorem mem_natCharsAux :
    ∀ (fuel n : ℕ) (c : Char), c ∈ natCharsAux fuel n →
      ∃ d, d < 10 ∧ c = digitChar d
  | 0, _, _, h => absurd h (by simp [natCharsAux])
  | fuel + 1, n, c, h => by
    rw [natCharsAux] at h
    by_cases h10 : n < 10
    · rw [if_pos h10] at h
      simp only [List.mem_singleton] at h
      exact ⟨n, h10, h⟩
    · rw [if_neg h10] at h
      rcases List.mem_append.mp h with h1 | h2
      · exact mem_natCharsAux fuel (n / 10) c h1
      · simp only [List.mem_singleton] at h2
        exact ⟨n % 10, by omega, h2⟩

theorem digitChar_ne_comma {d : ℕ} (h : d < 10) : digitChar d ≠ ',' := by
  interval_cases d <;> decide

theorem comma_not_mem_natChars (n : ℕ) : ',' ∉ natChars n := by
  intro h
  obtain ⟨d, hd, hc⟩ := mem_natCharsAux (n + 1) n ',' h
  exact digitChar_ne_comma hd hc.symm

theorem natChars_ne_nil (n : ℕ) : natChars n ≠ [] := by
  rw [natChars, natCharsAux]
  by_cases h10 : n < 10
  · rw [if_pos h10]
    simp
  · rw [if_neg h10]
    simp

theorem splitFirstComma (a : List Char) :
    ∀ (b u v : List Char), ',' ∉ a → ',' ∉ b →
      a ++ ',' :: u = b ++ ',' :: v → a = b ∧ u = v := by
  induction a with
  | nil =>
    intro b u v _ hb h
    cases b with
    | nil => simpa using h
    | cons c b2 =>
      simp only [List.nil_append, List.cons_append, List.cons.injEq] at h
      exact absurd (by rw [h.1]; exact List.mem_cons_self c b2) hb
  | cons c a2 ih =>
    intro b u v ha hb h
    cases b with
    | nil =>
      simp only [List.cons_append, List.nil_append, List.cons.injEq] at h
      exact absurd (by rw [← h.1]; exact List.mem_cons_self c a2) ha
    | cons c2 b2 =>
      simp only [List.cons_append, List.cons.injEq] at h
      obtain ⟨hc, ht⟩ := h
      have ha2 : ',' ∉ a2 := fun hm => ha (List.mem_cons_of_mem _ hm)
      have hb2 : ',' ∉ b2 := fun hm => hb (List.mem_cons_of_mem _ hm)
      obtain ⟨h1, h2⟩ := ih b2 u v ha2 hb2 ht
      exact ⟨by rw [hc, h1], h2⟩

theorem tupleTailChars_inj (l1 : List ℕ) :
    ∀ l2 : List ℕ, tupleTailChars l1 = tupleTailChars l2 → l1 = l2 := by
  induction l1 with
  | nil =>
    intro l2 h
    match l2 with
    | [] => rfl
    | [a] =>
      rw [tupleTailChars, tupleTailChars] at h
      exact absurd h.symm (natChars_ne_nil a)
    | a :: b :: r =>
      rw [tupleTailChars, tupleTailChars] at h
      exact absurd (congrArg List.length h) (by
        simp only [List.length_nil, List.length_append, List.length_cons]
        omega)
  | cons a t ih =>
    intro l2 h
    match t, l2 with
    | [], [] =>
      rw [tupleTailChars, tupleTailChars] at h
      exact absurd h (natChars_ne_nil a)
    | [], [b] =>
      rw [tupleTailChars, tupleTailChars] at h
      rw [natChars_inj h]
    | [], b :: c :: r =>
      rw [tupleTailChars, tupleTailChars] at h
      have : ',' ∈ natChars a := by
        rw [h]
        simp
      exact absurd this (comma_not_mem_natChars a)
    | b :: r, [] =>
      rw [tupleTailChars, tupleTailChars] at h
      exact absurd (congrArg List.length h) (by
        simp only [List.length_nil, List.length_append, List.length_cons]
        omega)
    | b :: r, [a2] =>
      rw [tupleTailChars, tupleTailChars] at h
      have : ',' ∈ natChars a2 := by
        rw [← h]
        simp
      exact absurd this (comma_not_mem_natChars a2)
    | b :: r, a2 :: b2 :: r2 =>
      rw [tupleTailChars, tupleTailChars] at h
      obtain ⟨h1, h2⟩ := splitFirstComma (natChars a) (natChars a2) _ _
        (comma_not_mem_natChars a) (comma_not_mem_natChars a2) h
      simp only [List.cons.injEq, true_and] at h2
      rw [natChars_inj h1, ih (b2 :: r2) h2]

theorem tupleBodyChars_inj (l1 l2 : List ℕ)
    (h : tupleBodyChars l1 = tupleBodyChars l2) : l1 = l2 := by
  match l1, l2 with
  | [], [] => rfl
  | [], [a] =>
    rw [tupleBodyChars, tupleBodyChars] at h
    exact absurd (congrArg List.length h) (by
        simp only [List.length_nil, List.length_append, List.length_cons]
        omega)
  | [], a :: b :: r =>
    rw [tupleBodyChars, tupleBodyChars] at h
    exact absurd (congrArg List.length h) (by
        simp only [List.length_nil, List.length_append, List.length_cons]
        omega)
  | [a], [] =>
    rw [tupleBodyChars, tupleBodyChars] at h
    exact absurd (congrArg List.length h) (by
        simp only [List.length_nil, List.length_append, List.length_cons]
        omega)
  | a :: b :: r, [] =>
    rw [tupleBodyChars, tupleBodyChars] at h
    exact absurd (congrArg List.length h) (by
        simp only [List.length_nil, List.length_append, List.length_cons]
        omega)
  | [a], [a2] =>
    rw [tupleBodyChars, tupleBodyChars] at h
    rw [natChars_inj (List.append_cancel_right h)]
  | [a], a2 :: b2 :: r2 =>
    rw [tupleBodyChars, tupleBodyChars] at h
    obtain ⟨-, h2⟩ := splitFirstComma (natChars a) (natChars a2) _ _
      (comma_not_mem_natChars a) (comma_not_mem_natChars a2) h
    exact absurd (congrArg List.length h2) (by
        simp only [List.length_nil, List.length_append, List.length_cons]
        omega)
  | a :: b :: r, [a2] =>
    rw [tupleBodyChars, tupleBodyChars] at h
    obtain ⟨-, h2⟩ := splitFirstComma (natChars a) (natChars a2) _ _
      (comma_not_mem_natChars a) (comma_not_mem_natChars a2) h
    exact absurd (congrArg List.length h2) (by
        simp only [List.length_nil, List.length_append, List.length_cons]
        omega)
  | a :: b :: r, a2 :: b2 :: r2 =>
    rw [tupleBodyChars, tupleBodyChars] at h
    obtain ⟨h1, h2⟩ := splitFirstComma (natChars a) (natChars a2) _ _
      (comma_not_mem_natChars a) (comma_not_mem_natChars a2) h
    simp only [List.cons.injEq, true_and] at h2
    rw [natChars_inj h1, tupleTailChars_inj (b :: r) (b2 :: r2) h2]

theorem pyTupleChars_inj {l1 l2 : List ℕ}
    (h : pyTupleChars l1 = pyTupleChars l2) : l1 = l2 := by
  rw [pyTupleChars, pyTupleChars] at h
  injection h with h1 h2
  exact tupleBodyChars_inj l1 l2 (List.append_cancel_right h2)

/-- Closed instance of the C6 statement at a concrete 1-mode Hamiltonian,
evaluated at the off-diagonal entry. -/
theorem spec_C6_witness :
    (bdg_hamiltonian (QuadraticHamiltonian.mk (fun _ _ => Cplx.ofRat 2)
        (fun _ _ => 0)) (1 : Fin (1 + 1)) (0 : Fin (1 + 1))).conj
      = bdg_hamiltonian (QuadraticHamiltonian.mk (fun _ _ => Cplx.ofRat 2)
          (fun _ _ => 0)) (0 : Fin (1 + 1)) (1 : Fin (1 + 1)) :=
  spec_C6_bdg_hermitian 1
    (QuadraticHamiltonian.mk (fun _ _ => Cplx.ofRat 2) (fun _ _ => 0))
    (by decide) (by decide) 0 1

theorem roundHalfEven_a : roundHalfEven ((1001/1000 : ℚ) * 100) = 100 := by
  have h1 : ((1001 : ℚ)/1000) * 100 = 1001/10 := by norm_num
  have h2 : ⌊(1001/10 : ℚ)⌋ = (100 : ℤ) :=
    Int.floor_eq_iff.mpr ⟨by norm_num, by norm_num⟩
  rw [roundHalfEven, h1, h2, if_neg (by norm_num), round_eq,
    show (1001/10 : ℚ) + 1/2 = 1006/10 by norm_num]
  exact Int.floor_eq_iff.mpr ⟨by norm_num, by norm_num⟩

theorem roundHalfEven_b : roundHalfEven ((1004/1000 : ℚ) * 100) = 100 := by
  have h1 : ((1004 : ℚ)/1000) * 100 = 1004/10 := by norm_num
  have h2 : ⌊(1004/10 : ℚ)⌋ = (100 : ℤ) :=
    Int.floor_eq_iff.mpr ⟨by norm_num, by norm_num⟩
  rw [roundHalfEven, h1, h2, if_neg (by norm_num), round_eq,
    show (1004/10 : ℚ) + 1/2 = 1009/10 by norm_num]
  exact Int.floor_eq_iff.mpr ⟨by norm_num, by norm_num⟩

theorem f2Chars_collision : f2Chars (1001/1000 : ℚ) = f2Chars (1004/1000 : ℚ) := by
  rw [f2Chars, f2Chars, roundHalfEven_a, roundHalfEven_b,
    if_neg (by norm_num : ¬(1001/1000 : ℚ) < 0),
    if_neg (by norm_num : ¬(1004/1000 : ℚ) < 0)]

theorem digitChar_ne_slash {d : ℕ} (h : d < 10) : digitChar d ≠ '/' := by
  interval_cases d <;> decide

theorem natChars_getLast?_ne_slash (n : ℕ) : (natChars n).getLast? ≠ some '/' := by
  intro h
  obtain ⟨hne, heq⟩ :=
    List.mem_getLast?_eq_getLast (l := natChars n) (x := '/') (Option.mem_def.mpr h)
  have hmem : '/' ∈ natChars n := by
    rw [heq]
    exact List.getLast_mem hne
  obtain ⟨d, hd, hc⟩ := mem_natCharsAux (n + 1) n '/' hmem
  exact digitChar_ne_slash hd hc.symm

theorem pad2Chars_ne_nil (k : ℕ) : pad2Chars k ≠ [] := by
  rw [pad2Chars]
  split_ifs
  · exact List.cons_ne_nil _ _
  · exact natChars_ne_nil k

theorem pad2Chars_getLast?_ne_slash (k : ℕ) : (pad2Chars k).getLast? ≠ some '/' := by
  rw [pad2Chars]
  split_ifs
  · rw [show ('0' :: natChars k) = ['0'] ++ natChars k from rfl,
      List.getLast?_append_of_ne_nil _ (natChars_ne_nil k)]
    exact natChars_getLast?_ne_slash k
  · exact natChars_getLast?_ne_slash k

theorem f2Chars_ne_nil (q : ℚ) : f2Chars q ≠ [] := by
  rw [f2Chars]
  intro h
  exact absurd (congrArg List.length h) (by
    simp only [List.length_append, List.length_cons, List.length_nil]
    omega)

theorem f2Chars_getLast?_ne_slash (q : ℚ) : (f2Chars q).getLast? ≠ some '/' := by
  rw [f2Chars, List.getLast?_append_cons,
    show ('.' :: pad2Chars ((roundHalfEven (q * 100)).natAbs % 100))
      = ['.'] ++ pad2Chars ((roundHalfEven (q * 100)).natAbs % 100) from rfl,
    List.getLast?_append_of_ne_nil _ (pad2Chars_ne_nil _)]
  exact pad2Chars_getLast?_ne_slash _

theorem seg2Chars_ne_nil (n : ℕ) (t D mu : ℚ) : seg2Chars n t D mu ≠ [] := by
  rw [seg2Chars]
  simp only [List.cons_append]
  exact List.cons_ne_nil _ _

theorem seg2Chars_head?_ne_slash (n : ℕ) (t D mu : ℚ) :
    (seg2Chars n t D mu).head? ≠ some '/' := by
  rw [seg2Chars]
  simp only [List.cons_append, List.head?_cons]
  decide

theorem seg2Chars_getLast?_ne_slash (n : ℕ) (t D mu : ℚ) :
    (seg2Chars n t D mu).getLast? ≠ some '/' := by
  rw [seg2Chars, List.getLast?_append_cons,
    show ('_' :: 'm' :: 'u' :: f2Chars mu) = ['_', 'm', 'u'] ++ f2Chars mu from rfl,
    List.getLast?_append_of_ne_nil _ (f2Chars_ne_nil mu)]
  exact f2Chars_getLast?_ne_slash mu

theorem pyTupleChars_ne_nil (l : List ℕ) : pyTupleChars l ≠ [] := by
  rw [pyTupleChars]
  intro h
  exact absurd (congrArg List.length h) (by
    simp only [List.length_append, List.length_cons, List.length_nil]
    omega)

theorem pyTupleChars_getLast?_eq (l : List ℕ) :
    (pyTupleChars l).getLast? = some ')' := by
  rw [pyTupleChars, List.getLast?_append_cons]
  rfl

theorem pyTupleChars_head?_ne_slash (l : List ℕ) :
    (pyTupleChars l).head? ≠ some '/' := by
  rw [pyTupleChars, List.cons_append, List.head?_cons]
  decide

theorem shotsSeg_ne_nil (s : List ℕ) : shotsSeg s ≠ [] :=
  List.cons_ne_nil _ _

theorem shotsSeg_head?_ne_slash (s : List ℕ) : (shotsSeg s).head? ≠ some '/' := by
  rw [shotsSeg, List.head?_cons]
  decide

theorem shotsSeg_getLast?_ne_slash (s : List ℕ) :
    (shotsSeg s).getLast? ≠ some '/' := by
  rw [shotsSeg,
    show ('s' :: 'h' :: 'o' :: 't' :: 's' :: pyTupleChars s)
      = ['s', 'h', 'o', 't', 's'] ++ pyTupleChars s from rfl,
    List.getLast?_append_of_ne_nil _ (pyTupleChars_ne_nil s),
    pyTupleChars_getLast?_eq]
  decide

theorem pathJoinOne_ne_nil (p b : List Char) (hb : b ≠ []) :
    pathJoinOne p b ≠ [] := by
  rw [pathJoinOne]
  split_ifs
  · exact hb
  · intro h
    exact hb (List.append_eq_nil.mp h).2
  · intro h
    exact List.cons_ne_nil '/' b (List.append_eq_nil.mp h).2

theorem pathJoinOne_getLast?_eq (p b : List Char) (hb : b ≠ []) :
    (pathJoinOne p b).getLast? = b.getLast? := by
  rw [pathJoinOne]
  split_ifs
  · rfl
  · exact List.getLast?_append_of_ne_nil p hb
  · rw [List.getLast?_append_cons, show ('/' :: b) = ['/'] ++ b from rfl,
      List.getLast?_append_of_ne_nil _ hb]

theorem pathJoinOne_inj_right {p b1 b2 : List Char}
    (h1 : b1.head? ≠ some '/') (h2 : b2.head? ≠ some '/')
    (h : pathJoinOne p b1 = pathJoinOne p b2) : b1 = b2 := by
  rw [pathJoinOne, pathJoinOne, if_neg h1, if_neg h2] at h
  by_cases hp : p = [] ∨ p.getLast? = some '/'
  · rw [if_pos hp, if_pos hp] at h
    exact List.append_cancel_left h
  · rw [if_neg hp, if_neg hp] at h
    have h3 := List.append_cancel_left h
    injection h3

theorem pathJoinOne_inj_left {p1 p2 b : List Char}
    (hp1 : p1 ≠ []) (hl1 : p1.getLast? ≠ some '/')
    (hp2 : p2 ≠ []) (hl2 : p2.getLast? ≠ some '/')
    (hb : b.head? ≠ some '/')
    (h : pathJoinOne p1 b = pathJoinOne p2 b) : p1 = p2 := by
  rw [pathJoinOne, pathJoinOne, if_neg hb, if_neg hb,
    if_neg (fun hc => hc.elim hp1 hl1), if_neg (fun hc => hc.elim hp2 hl2)] at h
  exact List.append_cancel_right h

theorem joinSeg2_ne_nil (e : List Char) (n : ℕ) (t D mu : ℚ) :
    pathJoinOne e (seg2Chars n t D mu) ≠ [] :=
  pathJoinOne_ne_nil _ _ (seg2Chars_ne_nil n t D mu)

theorem joinSeg2_getLast?_ne_slash (e : List Char) (n : ℕ) (t D mu : ℚ) :
    (pathJoinOne e (seg2Chars n t D mu)).getLast? ≠ some '/' := by
  rw [pathJoinOne_getLast?_eq _ _ (seg2Chars_ne_nil n t D mu)]
  exact seg2Chars_getLast?_ne_slash n t D mu

theorem joinShots_ne_nil (p : List Char) (s : List ℕ) :
    pathJoinOne p (shotsSeg s) ≠ [] :=
  pathJoinOne_ne_nil _ _ (shotsSeg_ne_nil s)

theorem joinShots_getLast?_ne_slash (p : List Char) (s : List ℕ) :
    (pathJoinOne p (shotsSeg s)).getLast? ≠ some '/' := by
  rw [pathJoinOne_getLast?_eq _ _ (shotsSeg_ne_nil s)]
  exact shotsSeg_getLast?_ne_slash s

/-- Claim C5 counterexample: two tasks that differ in exactly one field —
the raw tunneling value, `1.001` vs `1.004` — yet have identical derived
filenames, refuting "differing in any single field produces different
filename strings". -/
theorem spec_C5_counterexample :
    (KitaevHamiltonianTask.mk "exp" 4 (1001/1000) (1/2) 0 [0] [1000]).tunneling
      ≠ (KitaevHamiltonianTask.mk "exp" 4 (1004/1000) (1/2) 0 [0] [1000]).tunneling ∧
    (KitaevHamiltonianTask.mk "exp" 4 (1001/1000) (1/2) 0 [0] [1000]).filename
      = (KitaevHamiltonianTask.mk "exp" 4 (1004/1000) (1/2) 0 [0] [1000]).filename := by
  constructor
  · show (1001/1000 : ℚ) ≠ 1004/1000
    norm_num
  · simp only [KitaevHamiltonianTask.filename, KitaevHamiltonianTask.filenameChars,
      seg2Chars, f2Chars_collision]

/-- Claim C5 (amended): tasks with identical fields have identical
filenames and hashes; the hash is a function of the filename alone;
differing in the shots field, the mode count, or the occupied orbitals
changes the filename; differing in the experiment id changes the filename
provided neither id ends in the path separator (`os.path.join` inserts no
separator after an empty id or one ending in '/', so such ids can
collide); and differing in a float field changes the filename exactly when
its 2-decimal rendering differs. -/
theorem spec_C5_task_key :
    (∀ t1 t2 : KitaevHamiltonianTask,
      t1 = t2 → t1.filename = t2.filename ∧ t1.taskHash = t2.taskHash) ∧
    (∀ t1 t2 : KitaevHamiltonianTask,
      t1.filename = t2.filename → t1.taskHash = t2.taskHash) ∧
    (∀ (e : String) (n : ℕ) (t D mu : ℚ) (orb s1 s2 : List ℕ), s1 ≠ s2 →
      (KitaevHamiltonianTask.mk e n t D mu orb s1).filename
        ≠ (KitaevHamiltonianTask.mk e n t D mu orb s2).filename) ∧
    (∀ (e1 e2 : String) (n : ℕ) (t D mu : ℚ) (orb s : List ℕ),
      e1.data.getLast? ≠ some '/' → e2.data.getLast? ≠ some '/' → e1 ≠ e2 →
      (KitaevHamiltonianTask.mk e1 n t D mu orb s).filename
        ≠ (KitaevHamiltonianTask.mk e2 n t D mu orb s).filename) ∧
    (∀ (e : String) (n1 n2 : ℕ) (t D mu : ℚ) (orb s : List ℕ), n1 ≠ n2 →
      (KitaevHamiltonianTask.mk e n1 t D mu orb s).filename
        ≠ (KitaevHamiltonianTask.mk e n2 t D mu orb s).filename) ∧
    (∀ (e : String) (n : ℕ) (t D mu : ℚ) (orb1 orb2 s : List ℕ), orb1 ≠ orb2 →
      (KitaevHamiltonianTask.mk e n t D mu orb1 s).filename
        ≠ (KitaevHamiltonianTask.mk e n t D mu orb2 s).filename) ∧
    (∀ (e : String) (n : ℕ) (t1 t2 D mu : ℚ) (orb s : List ℕ),
      f2Chars t1 ≠ f2Chars t2 →
      (KitaevHamiltonianTask.mk e n t1 D mu orb s).filename
        ≠ (KitaevHamiltonianTask.mk e n t2 D mu orb s).filename) ∧
    (∀ (e : String) (n : ℕ) (t D1 D2 mu : ℚ) (orb s : List ℕ),
      f2Chars D1 ≠ f2Chars D2 →
      (KitaevHamiltonianTask.mk e n t D1 mu orb s).filename
        ≠ (KitaevHamiltonianTask.mk e n t D2 mu orb s).filename) ∧
    (∀ (e : String) (n : ℕ) (t D mu1 mu2 : ℚ) (orb s : List ℕ),
      f2Chars mu1 ≠ f2Chars mu2 →
      (KitaevHamiltonianTask.mk e n t D mu1 orb s).filename
        ≠ (KitaevHamiltonianTask.mk e n t D mu2 orb s).filename) := by
  refine ⟨?_, ?_, ?_, ?_, ?_, ?_, ?_, ?_, ?_⟩
  · intro t1 t2 h
    subst h
    exact ⟨rfl, rfl⟩
  · intro t1 t2 h
    rw [KitaevHamiltonianTask.taskHash, KitaevHamiltonianTask.taskHash, h]
  · intro e n t D mu orb s1 s2 hs hf
    apply hs
    rw [String.ext_iff] at hf
    simp only [KitaevHamiltonianTask.filename,
      KitaevHamiltonianTask.filenameChars] at hf
    have h1 := pathJoinOne_inj_left (joinShots_ne_nil _ s1)
      (joinShots_getLast?_ne_slash _ s1) (joinShots_ne_nil _ s2)
      (joinShots_getLast?_ne_slash _ s2) (pyTupleChars_head?_ne_slash orb) hf
    have h2 := pathJoinOne_inj_right (shotsSeg_head?_ne_slash s1)
      (shotsSeg_head?_ne_slash s2) h1
    rw [shotsSeg, shotsSeg] at h2
    simp only [List.cons.injEq, true_and] at h2
    exact pyTupleChars_inj h2
  · intro e1 e2 n t D mu orb s hl1 hl2 he hf
    apply he
    rw [String.ext_iff] at hf
    simp only [KitaevHamiltonianTask.filename,
      KitaevHamiltonianTask.filenameChars] at hf
    have h1 := pathJoinOne_inj_left (joinShots_ne_nil _ s)
      (joinShots_getLast?_ne_slash _ s) (joinShots_ne_nil _ s)
      (joinShots_getLast?_ne_slash _ s) (pyTupleChars_head?_ne_slash orb) hf
    have h2 := pathJoinOne_inj_left (joinSeg2_ne_nil _ n t D mu)
      (joinSeg2_getLast?_ne_slash _ n t D mu) (joinSeg2_ne_nil _ n t D mu)
      (joinSeg2_getLast?_ne_slash _ n t D mu) (shotsSeg_head?_ne_slash s) h1
    rw [pathJoinOne, pathJoinOne,
      if_neg (seg2Chars_head?_ne_slash n t D mu),
      if_neg (seg2Chars_head?_ne_slash n t D mu)] at h2
    by_cases h1e : e1.data = [] <;> by_cases h2e : e2.data = []
    · exact String.ext (h1e.trans h2e.symm)
    · rw [if_pos (Or.inl h1e), if_neg (fun hc => hc.elim h2e hl2), h1e,
        List.nil_append] at h2
      exact absurd (congrArg List.length h2) (by
        simp only [List.length_append, List.length_cons]
        omega)
    · rw [if_neg (fun hc => hc.elim h1e hl1), if_pos (Or.inl h2e), h2e,
        List.nil_append] at h2
      exact absurd (congrArg List.length h2) (by
        simp only [List.length_append, List.length_cons]
        omega)
    · rw [if_neg (fun hc => hc.elim h1e hl1),
        if_neg (fun hc => hc.elim h2e hl2)] at h2
      exact String.ext (List.append_cancel_right h2)
  · intro e n1 n2 t D mu orb s hn hf
    apply hn
    rw [String.ext_iff] at hf
    simp only [KitaevHamiltonianTask.filename,
      KitaevHamiltonianTask.filenameChars] at hf
    have h1 := pathJoinOne_inj_left (joinShots_ne_nil _ s)
      (joinShots_getLast?_ne_slash _ s) (joinShots_ne_nil _ s)
      (joinShots_getLast?_ne_slash _ s) (pyTupleChars_head?_ne_slash orb) hf
    have h2 := pathJoinOne_inj_left (joinSeg2_ne_nil _ n1 t D mu)
      (joinSeg2_getLast?_ne_slash _ n1 t D mu) (joinSeg2_ne_nil _ n2 t D mu)
      (joinSeg2_getLast?_ne_slash _ n2 t D mu) (shotsSeg_head?_ne_slash s) h1
    have h3 := pathJoinOne_inj_right (seg2Chars_head?_ne_slash n1 t D mu)
      (seg2Chars_head?_ne_slash n2 t D mu) h2
    rw [seg2Chars, seg2Chars] at h3
    have h4 := List.append_cancel_right h3
    have h5 := List.append_cancel_right h4
    have h6 := List.append_cancel_right h5
    simp only [List.cons.injEq, true_and] at h6
    exact natChars_inj h6
  · intro e n t D mu orb1 orb2 s ho hf
    apply ho
    rw [String.ext_iff] at hf
    simp only [KitaevHamiltonianTask.filename,
      KitaevHamiltonianTask.filenameChars] at hf
    have h1 := pathJoinOne_inj_right (pyTupleChars_head?_ne_slash orb1)
      (pyTupleChars_head?_ne_slash orb2) hf
    exact pyTupleChars_inj h1
  · intro e n t1 t2 D mu orb s ht hf
    apply ht
    rw [String.ext_iff] at hf
    simp only [KitaevHamiltonianTask.filename,
      KitaevHamiltonianTask.filenameChars] at hf
    have h1 := pathJoinOne_inj_left (joinShots_ne_nil _ s)
      (joinShots_getLast?_ne_slash _ s) (joinShots_ne_nil _ s)
      (joinShots_getLast?_ne_slash _ s) (pyTupleChars_head?_ne_slash orb) hf
    have h2 := pathJoinOne_inj_left (joinSeg2_ne_nil _ n t1 D mu)
      (joinSeg2_getLast?_ne_slash _ n t1 D mu) (joinSeg2_ne_nil _ n t2 D mu)
      (joinSeg2_getLast?_ne_slash _ n t2 D mu) (shotsSeg_head?_ne_slash s) h1
    have h3 := pathJoinOne_inj_right (seg2Chars_head?_ne_slash n t1 D mu)
      (seg2Chars_head?_ne_slash n t2 D mu) h2
    rw [seg2Chars, seg2Chars] at h3
    have h4 := List.append_cancel_right h3
    have h5 := List.append_cancel_right h4
    have h6 := List.append_cancel_left h5
    simp only [List.cons.injEq, true_and] at h6
    exact h6
  · intro e n t D1 D2 mu orb s hD hf
    apply hD
    rw [String.ext_iff] at hf
    simp only [KitaevHamiltonianTask.filename,
      KitaevHamiltonianTask.filenameChars] at hf
    have h1 := pathJoinOne_inj_left (joinShots_ne_nil _ s)
      (joinShots_getLast?_ne_slash _ s) (joinShots_ne_nil _ s)
      (joinShots_getLast?_ne_slash _ s) (pyTupleChars_head?_ne_slash orb) hf
    have h2 := pathJoinOne_inj_left (joinSeg2_ne_nil _ n t D1 mu)
      (joinSeg2_getLast?_ne_slash _ n t D1 mu) (joinSeg2_ne_nil _ n t D2 mu)
      (joinSeg2_getLast?_ne_slash _ n t D2 mu) (shotsSeg_head?_ne_slash s) h1
    have h3 := pathJoinOne_inj_right (seg2Chars_head?_ne_slash n t D1 mu)
      (seg2Chars_head?_ne_slash n t D2 mu) h2
    rw [seg2Chars, seg2Chars] at h3
    have h4 := List.append_cancel_right h3
    have h5 := List.append_cancel_left h4
    simp only [List.cons.injEq, true_and] at h5
    exact h5
  · intro e n t D mu1 mu2 orb s hmu hf
    apply hmu
    rw [String.ext_iff] at hf
    simp only [KitaevHamiltonianTask.filename,
      KitaevHamiltonianTask.filenameChars] at hf
    have h1 := pathJoinOne_inj_left (joinShots_ne_nil _ s)
      (joinShots_getLast?_ne_slash _ s) (joinShots_ne_nil _ s)
      (joinShots_getLast?_ne_slash _ s) (pyTupleChars_head?_ne_slash orb) hf
    have h2 := pathJoinOne_inj_left (joinSeg2_ne_nil _ n t D mu1)
      (joinSeg2_getLast?_ne_slash _ n t D mu1) (joinSeg2_ne_nil _ n t D mu2)
      (joinSeg2_getLast?_ne_slash _ n t D mu2) (shotsSeg_head?_ne_slash s) h1
    have h3 := pathJoinOne_inj_right (seg2Chars_head?_ne_slash n t D mu1)
      (seg2Chars_head?_ne_slash n t D mu2) h2
    rw [seg2Chars, seg2Chars] at h3
    have h4 := List.append_cancel_left h3
    simp only [List.cons.injEq, true_and] at h4
    exact h4

/-- Closed instance of the C5 statement: discharging the shots-difference
hypothesis at two concrete tasks. -/
theorem spec_C5_witness :
    (KitaevHamiltonianTask.mk "e" 1 0 0 0 [] [1]).filename
      ≠ (KitaevHamiltonianTask.mk "e" 1 0 0 0 [] [2]).filename :=
  spec_C5_task_key.2.2.1 "e" 1 0 0 0 [] [1] [2] (by decide)

/-- Claim C8: whenever the three float fields of two tasks format
identically at 2 decimal places and all other fields are equal, the tasks
have identical filenames and equal hashes, even when the raw float values
differ; the concrete instance is tunneling `1.001` vs `1.004`, which differ
as rationals yet format identically. -/
theorem spec_C8_format_collision :
    (∀ (e : String) (n : ℕ) (t1 t2 D1 D2 mu1 mu2 : ℚ) (orb s : List ℕ),
      f2Chars t1 = f2Chars t2 → f2Chars D1 = f2Chars D2 →
      f2Chars mu1 = f2Chars mu2 →
      (KitaevHamiltonianTask.mk e n t1 D1 mu1 orb s).filename
        = (KitaevHamiltonianTask.mk e n t2 D2 mu2 orb s).filename ∧
      (KitaevHamiltonianTask.mk e n t1 D1 mu1 orb s).taskHash
        = (KitaevHamiltonianTask.mk e n t2 D2 mu2 orb s).taskHash) ∧
    ((1001/1000 : ℚ) ≠ 1004/1000 ∧
      f2Chars (1001/1000 : ℚ) = f2Chars (1004/1000 : ℚ)) := by
  constructor
  · intro e n t1 t2 D1 D2 mu1 mu2 orb s ht hD hmu
    have hf : (KitaevHamiltonianTask.mk e n t1 D1 mu1 orb s).filename
        = (KitaevHamiltonianTask.mk e n t2 D2 mu2 orb s).filename := by
      simp only [KitaevHamiltonianTask.filename,
        KitaevHamiltonianTask.filenameChars, seg2Chars, ht, hD, hmu]
    exact ⟨hf, by
      rw [KitaevHamiltonianTask.taskHash, KitaevHamiltonianTask.taskHash, hf]⟩
  · exact ⟨by norm_num, f2Chars_collision⟩

/-- Closed instance of the C8 statement, discharging the format-equality
hypotheses at the concrete tunneling pair `1.001` vs `1.004`. -/
theorem spec_C8_witness :
    (KitaevHamiltonianTask.mk "exp8" 4 (1001/1000) (1/2) 0 [0] [1000]).filename
      = (KitaevHamiltonianTask.mk "exp8" 4 (1004/1000) (1/2) 0 [0] [1000]).filename ∧
    (KitaevHamiltonianTask.mk "exp8" 4 (1001/1000) (1/2) 0 [0] [1000]).taskHash
      = (KitaevHamiltonianTask.mk "exp8" 4 (1004/1000) (1/2) 0 [0] [1000]).taskHash :=
  spec_C8_format_collision.1 "exp8" 4 (1001/1000) (1004/1000) (1/2) (1/2) 0 0
    [0] [1000] f2Chars_collision rfl rfl
